import Mathlib

/-!
# Verification of the elevator dispatch core (`src/Elevator/elevator.py`)

Shallow embedding of `ElevatorController`: `_parse_commands`,
`_determine_initial_direction`, `_calculate_optimal_route` and
`process_commands`.  Python ints are modelled as `Int`; the `Direction`
IntEnum values `UP = 11` and `DOWN = 12` appear as the literal sentinels
`11`/`12` in commands and as the enum `Dir` for the stored direction;
`self.direction` (initially `None`) is `Option Dir`.  Python dicts
(`up_requests`, `down_requests`) are association lists with distinct keys
where assignment overwrites the value in place.  A Python `set` of floors
is a duplicate-free list (`setAdd` skips elements already present), which
the code only consumes through membership-determined operations
(`sorted(...)` over its elements, filtering, `any`); `sorted(xs)` is
`List.insertionSort (· ≤ ·) xs` and `sorted(xs, reverse=True)` its
reverse.  Python truthiness of `if target:` (both `None` and `0` are
falsy) is modelled explicitly.
-/

namespace Elevator

/-- The stored travel direction (`Direction.UP` / `Direction.DOWN`). -/
inductive Dir : Type
  | up : Dir
  | down : Dir
deriving DecidableEq, Repr

/-- The controller state: `self.current_floor`, `self.max_floor`,
`self.direction` (where Python `None` is `none`). -/
structure EState : Type where
  current_floor : Int
  max_floor : Int
  direction : Option Dir
deriving DecidableEq, Repr

/-- Result of `_parse_commands`: the dicts `up_requests` / `down_requests`
(origin floor ↦ optional destination, `None` for a bare direction marker)
and the list `internal_requests`. -/
structure Requests : Type where
  up_requests : List (Int × Option Int)
  down_requests : List (Int × Option Int)
  internal_requests : List Int
deriving DecidableEq, Repr

/-- Python dict assignment `d[k] = v`: replace the value of an existing key
in place, else append the new binding. -/
def dictInsert (d : List (Int × Option Int)) (k : Int) (v : Option Int) :
    List (Int × Option Int) :=
  match d with
  | [] => [(k, v)]
  | (k', v') :: rest =>
      if k' = k then (k, v) :: rest else (k', v') :: dictInsert rest k v

/-- One iteration of the `for location, command in commands` loop of
`_parse_commands`. -/
def parseStep (req : Requests) (lc : Int × Int) : Requests :=
  if lc.1 = 11 then
    { req with internal_requests := req.internal_requests ++ [lc.2] }
  else if lc.2 = 11 then
    { req with up_requests := dictInsert req.up_requests lc.1 none }
  else if lc.2 = 12 then
    { req with down_requests := dictInsert req.down_requests lc.1 none }
  else if lc.2 > lc.1 then
    { req with up_requests := dictInsert req.up_requests lc.1 (some lc.2) }
  else
    { req with down_requests := dictInsert req.down_requests lc.1 (some lc.2) }

/-- Embedding of `ElevatorController._parse_commands`. -/
def parse_commands (commands : List (Int × Int)) : Requests :=
  commands.foldl parseStep ⟨[], [], []⟩

/-- Embedding of `ElevatorController._determine_initial_direction`, taking the lists the
caller passes (`up_floors`, `down_floors`, `internal_floors`). -/
def determine_initial_direction (current : Int)
    (up_floors down_floors internal_floors : List Int) : Dir :=
  let up_count := (up_floors.filter (fun f => f ≥ current)).length
  let down_count := (down_floors.filter (fun f => f ≤ current)).length
  let internal_up := (internal_floors.filter (fun f => f > current)).length
  let internal_down := (internal_floors.filter (fun f => f < current)).length
  if up_count + internal_up ≥ down_count + internal_down then Dir.up else Dir.down

/-- Python `s.add(x)` on a set represented as a duplicate-free list. -/
def setAdd (s : List Int) (x : Int) : List Int :=
  if x ∈ s then s else s ++ [x]

/-- Adding one dict entry to `all_stops`: `all_stops.add(floor)` followed by
`if target: all_stops.add(target)` (Python: `None` and `0` are falsy). -/
def addStop (s : List Int) (kv : Int × Option Int) : List Int :=
  match kv.2 with
  | some t => if t = 0 then setAdd s kv.1 else setAdd (setAdd s kv.1) t
  | none => setAdd s kv.1

/-- Folding a whole dict into `all_stops` (one visit per key, as Python's
iteration over `sorted(dict.keys())` with a lookup per key). -/
def dictStops (s : List Int) (d : List (Int × Option Int)) : List Int :=
  d.foldl addStop s

/-- The set `all_stops` built by `_calculate_optimal_route`: keys and truthy
targets of both dicts, then `update(internal_floors)`, then
`discard(current)`. -/
def all_stops (req : Requests) (current : Int) : List Int :=
  let internal_floors := List.insertionSort (· ≤ ·) req.internal_requests.dedup
  ((internal_floors.foldl setAdd
      (dictStops (dictStops [] req.up_requests) req.down_requests)).filter
    (fun f => f ≠ current))

/-- The `if not self.direction: self.direction = self._determine_initial_direction(...)`
step of `_calculate_optimal_route`: the stored direction after the call,
passing `up_floors` (sorted dict keys), `down_floors` (reverse-sorted dict
keys) and `internal_floors` (`sorted(set(...))`) exactly as the code does. -/
def resolvedDir (st : EState) (req : Requests) : Option Dir :=
  if st.direction = none then
    some (determine_initial_direction st.current_floor
      (List.insertionSort (· ≤ ·) (req.up_requests.map Prod.fst))
      ((List.insertionSort (· ≤ ·) (req.down_requests.map Prod.fst)).reverse)
      (List.insertionSort (· ≤ ·) req.internal_requests.dedup))
  else st.direction

/-- The list `up_stops = sorted([f for f in all_stops if f > current])`. -/
def upRun (req : Requests) (current : Int) : List Int :=
  List.insertionSort (· ≤ ·) ((all_stops req current).filter (fun f => f > current))

/-- The list `down_stops = sorted([f for f in all_stops if f < current], reverse=True)`. -/
def downRun (req : Requests) (current : Int) : List Int :=
  (List.insertionSort (· ≤ ·) ((all_stops req current).filter (fun f => f < current))).reverse

/-- Embedding of `ElevatorController._calculate_optimal_route`, returning the route and
the (possibly freshly resolved) stored direction.  The branch condition is
the code's `if self.direction == Direction.UP or (self.direction is None
and any(f > current for f in all_stops))` (read after the resolution step,
so the second disjunct is reachable only if the direction were still
`None`). -/
def calculate_optimal_route (st : EState) (req : Requests) :
    List Int × Option Dir :=
  let direction := resolvedDir st req
  let current := st.current_floor
  let stops := all_stops req current
  let route :=
    if direction = some Dir.up ∨
        (direction = none ∧ stops.any (fun f => f > current)) then
      upRun req current ++ downRun req current
    else
      downRun req current ++ upRun req current
  (route, direction)

/-- Embedding of `ElevatorController.process_commands`: parse, route, and carry the state
(the method mutates only `self.direction`, and only when it was `None`). -/
def process_commands (st : EState) (commands : List (Int × Int)) :
    List Int × EState :=
  let req := parse_commands commands
  let rd := calculate_optimal_route st req
  (rd.1, { st with direction := rd.2 })

/-- A command pair `(origin, command)` is valid in the sense of the spec:
origin in `[1, maxFloor] ∪ {11}` (11 = cab sentinel), command in
`[1, maxFloor] ∪ {11, 12}` (direction markers). -/
def ValidCommand (maxFloor : Int) (lc : Int × Int) : Prop :=
  ((1 ≤ lc.1 ∧ lc.1 ≤ maxFloor) ∨ lc.1 = 11) ∧
    ((1 ≤ lc.2 ∧ lc.2 ≤ maxFloor) ∨ lc.2 = 11 ∨ lc.2 = 12)

instance (m : Int) (lc : Int × Int) : Decidable (ValidCommand m lc) := by
  unfold ValidCommand
  infer_instance

/-- The StopSet exactly as the spec words it: hall-up origins, their known
destinations, hall-down origins, their known destinations, and cab-call
destinations, minus the current floor. -/
def specStopSet (req : Requests) (current : Int) : Finset Int :=
  ((req.up_requests.map Prod.fst).toFinset ∪
      (req.up_requests.filterMap Prod.snd).toFinset ∪
      (req.down_requests.map Prod.fst).toFinset ∪
      (req.down_requests.filterMap Prod.snd).toFinset ∪
      req.internal_requests.toFinset).erase current

/-- Spec-side `totalUp`: hall-up origins at or above the current floor plus
cab destinations strictly above it (counted as sets). -/
def specTotalUp (req : Requests) (current : Int) : Nat :=
  ((req.up_requests.map Prod.fst).toFinset.filter (fun f => f ≥ current)).card +
    (req.internal_requests.toFinset.filter (fun f => f > current)).card

/-- Spec-side `totalDown`: hall-down origins at or below the current floor
plus cab destinations strictly below it (counted as sets). -/
def specTotalDown (req : Requests) (current : Int) : Nat :=
  ((req.down_requests.map Prod.fst).toFinset.filter (fun f => f ≤ current)).card +
    (req.internal_requests.toFinset.filter (fun f => f < current)).card

/-! ## Basic lemmas about the set and dict primitives -/

theorem mem_setAdd {s : List Int} {y x : Int} :
    x ∈ setAdd s y ↔ x ∈ s ∨ x = y := by
  unfold setAdd
  by_cases h : y ∈ s
  · simp only [if_pos h]
    constructor
    · exact Or.inl
    · rintro (hx | rfl)
      · exact hx
      · exact h
  · simp [if_neg h]

theorem nodup_setAdd {s : List Int} (h : s.Nodup) (y : Int) :
    (setAdd s y).Nodup := by
  unfold setAdd
  by_cases hy : y ∈ s
  · simpa [if_pos hy] using h
  · simp [if_neg hy, List.nodup_append, h, hy]

theorem mem_addStop {s : List Int} {kv : Int × Option Int} {x : Int} :
    x ∈ addStop s kv ↔
      x ∈ s ∨ x = kv.1 ∨ (∃ t, kv.2 = some t ∧ t ≠ 0 ∧ x = t) := by
  obtain ⟨k, v⟩ := kv
  cases v with
  | none => simp [addStop, mem_setAdd]
  | some t =>
      by_cases ht : t = 0
      · subst ht
        simp [addStop, mem_setAdd]
      · simp [addStop, if_neg ht, mem_setAdd, ht, or_assoc]

theorem nodup_addStop {s : List Int} (h : s.Nodup) (kv : Int × Option Int) :
    (addStop s kv).Nodup := by
  obtain ⟨k, v⟩ := kv
  cases v with
  | none => exact nodup_setAdd h k
  | some t =>
      by_cases ht : t = 0
      · simpa [addStop, ht] using nodup_setAdd h k
      · simpa [addStop, if_neg ht] using nodup_setAdd (nodup_setAdd h k) t

theorem mem_dictStops {d : List (Int × Option Int)} {s : List Int} {x : Int} :
    x ∈ dictStops s d ↔
      x ∈ s ∨ ∃ kv ∈ d, x = kv.1 ∨ (∃ t, kv.2 = some t ∧ t ≠ 0 ∧ x = t) := by
  induction d generalizing s with
  | nil => simp [dictStops]
  | cons kv rest ih =>
      have hstep : dictStops s (kv :: rest) = dictStops (addStop s kv) rest := rfl
      rw [hstep, ih]
      simp only [mem_addStop, List.mem_cons]
      constructor
      · rintro ((hx | hx) | ⟨kv', h1, h2⟩)
        · exact Or.inl hx
        · exact Or.inr ⟨kv, Or.inl rfl, hx⟩
        · exact Or.inr ⟨kv', Or.inr h1, h2⟩
      · rintro (hx | ⟨kv', hkv' | hkv', h2⟩)
        · exact Or.inl (Or.inl hx)
        · subst hkv'
          exact Or.inl (Or.inr h2)
        · exact Or.inr ⟨kv', hkv', h2⟩

theorem nodup_dictStops {d : List (Int × Option Int)} {s : List Int}
    (h : s.Nodup) : (dictStops s d).Nodup := by
  induction d generalizing s with
  | nil => exact h
  | cons kv rest ih => exact ih (nodup_addStop h kv)

theorem mem_foldl_setAdd {l s : List Int} {x : Int} :
    x ∈ l.foldl setAdd s ↔ x ∈ s ∨ x ∈ l := by
  induction l generalizing s with
  | nil => simp
  | cons a rest ih =>
      have hstep : (a :: rest).foldl setAdd s = rest.foldl setAdd (setAdd s a) := rfl
      rw [hstep, ih]
      simp only [mem_setAdd, List.mem_cons]
      tauto

theorem nodup_foldl_setAdd {l s : List Int} (h : s.Nodup) :
    (l.foldl setAdd s).Nodup := by
  induction l generalizing s with
  | nil => exact h
  | cons a rest ih => exact ih (nodup_setAdd h a)

/-- Membership in the code's `all_stops` set, in terms of the classified
requests. -/
theorem mem_all_stops {req : Requests} {current x : Int} :
    x ∈ all_stops req current ↔
      x ≠ current ∧
        ((∃ kv ∈ req.up_requests, x = kv.1 ∨ (∃ t, kv.2 = some t ∧ t ≠ 0 ∧ x = t)) ∨
          (∃ kv ∈ req.down_requests, x = kv.1 ∨ (∃ t, kv.2 = some t ∧ t ≠ 0 ∧ x = t)) ∨
          x ∈ req.internal_requests) := by
  unfold all_stops
  rw [List.mem_filter, mem_foldl_setAdd, mem_dictStops, mem_dictStops]
  simp only [List.not_mem_nil, false_or, List.mem_insertionSort,
    List.mem_dedup, decide_eq_true_eq, ne_eq]
  constructor
  · rintro ⟨h1, h2⟩
    exact ⟨h2, or_assoc.mp h1⟩
  · rintro ⟨h2, h1⟩
    exact ⟨or_assoc.mpr h1, h2⟩

theorem nodup_all_stops (req : Requests) (current : Int) :
    (all_stops req current).Nodup := by
  unfold all_stops
  exact (nodup_foldl_setAdd (nodup_dictStops (nodup_dictStops List.nodup_nil))).filter _

/-! ## The two monotone runs making up a route -/

theorem mem_upRun {req : Requests} {current x : Int} :
    x ∈ upRun req current ↔ x ∈ all_stops req current ∧ current < x := by
  unfold upRun
  rw [List.mem_insertionSort, List.mem_filter]
  simp [decide_eq_true_eq, gt_iff_lt]

theorem mem_downRun {req : Requests} {current x : Int} :
    x ∈ downRun req current ↔ x ∈ all_stops req current ∧ x < current := by
  unfold downRun
  rw [List.mem_reverse, List.mem_insertionSort, List.mem_filter]
  simp [decide_eq_true_eq]

theorem nodup_upRun (req : Requests) (current : Int) :
    (upRun req current).Nodup :=
  ((List.perm_insertionSort _ _).nodup_iff).mpr
    ((nodup_all_stops req current).filter _)

theorem nodup_downRun (req : Requests) (current : Int) :
    (downRun req current).Nodup :=
  List.nodup_reverse.mpr (((List.perm_insertionSort _ _).nodup_iff).mpr
    ((nodup_all_stops req current).filter _))

theorem sorted_upRun (req : Requests) (current : Int) :
    (upRun req current).Sorted (· < ·) :=
  (List.sorted_insertionSort _ _).lt_of_le (nodup_upRun req current)

theorem sorted_downRun (req : Requests) (current : Int) :
    (downRun req current).Sorted (· > ·) := by
  unfold downRun
  rw [List.Sorted, List.pairwise_reverse]
  exact (List.sorted_insertionSort _ _).lt_of_le
    (((List.perm_insertionSort _ _).nodup_iff).mpr
      ((nodup_all_stops req current).filter _))

/-! ## Direction resolution and route shape -/

theorem process_direction (st : EState) (cmds : List (Int × Int)) :
    (process_commands st cmds).2.direction = resolvedDir st (parse_commands cmds) := rfl

theorem process_route (st : EState) (cmds : List (Int × Int)) :
    (process_commands st cmds).1 =
      (calculate_optimal_route st (parse_commands cmds)).1 := rfl

theorem resolvedDir_ne_none (st : EState) (req : Requests) :
    resolvedDir st req ≠ none := by
  unfold resolvedDir
  cases h : st.direction with
  | none => simp
  | some d => simp [h]

theorem resolvedDir_of_some {st : EState} {req : Requests} {d : Dir}
    (h : st.direction = some d) : resolvedDir st req = some d := by
  unfold resolvedDir
  simp [h]

theorem calc_route_of_up {st : EState} {req : Requests}
    (h : resolvedDir st req = some Dir.up) :
    (calculate_optimal_route st req).1 =
      upRun req st.current_floor ++ downRun req st.current_floor := by
  unfold calculate_optimal_route
  simp [h]

theorem calc_route_of_down {st : EState} {req : Requests}
    (h : resolvedDir st req = some Dir.down) :
    (calculate_optimal_route st req).1 =
      downRun req st.current_floor ++ upRun req st.current_floor := by
  unfold calculate_optimal_route
  simp [h]

/-- The route contains exactly the floors of the code's `all_stops` set. -/
theorem mem_route {st : EState} {req : Requests} {x : Int} :
    x ∈ (calculate_optimal_route st req).1 ↔ x ∈ all_stops req st.current_floor := by
  have hsplit : ∀ hs : x ∈ all_stops req st.current_floor,
      x < st.current_floor ∨ st.current_floor < x := by
    intro hs
    exact lt_or_gt_of_ne (mem_all_stops.mp hs).1
  rcases h : resolvedDir st req with _ | d
  · exact absurd h (resolvedDir_ne_none st req)
  cases d
  · rw [calc_route_of_up h]
    simp only [List.mem_append, mem_upRun, mem_downRun]
    constructor
    · rintro (⟨hs, _⟩ | ⟨hs, _⟩) <;> exact hs
    · intro hs
      rcases hsplit hs with hlt | hgt
      · exact Or.inr ⟨hs, hlt⟩
      · exact Or.inl ⟨hs, hgt⟩
  · rw [calc_route_of_down h]
    simp only [List.mem_append, mem_upRun, mem_downRun]
    constructor
    · rintro (⟨hs, _⟩ | ⟨hs, _⟩) <;> exact hs
    · intro hs
      rcases hsplit hs with hlt | hgt
      · exact Or.inl ⟨hs, hlt⟩
      · exact Or.inr ⟨hs, hgt⟩

theorem disjoint_runs (req : Requests) (current : Int) :
    (upRun req current).Disjoint (downRun req current) := by
  intro x hxu hxd
  have h1 := (mem_upRun.mp hxu).2
  have h2 := (mem_downRun.mp hxd).2
  exact absurd h2 (not_lt_of_gt h1)

theorem nodup_route (st : EState) (req : Requests) :
    (calculate_optimal_route st req).1.Nodup := by
  rcases h : resolvedDir st req with _ | d
  · exact absurd h (resolvedDir_ne_none st req)
  cases d
  · rw [calc_route_of_up h]
    exact (nodup_upRun req st.current_floor).append
      (nodup_downRun req st.current_floor) (disjoint_runs req st.current_floor)
  · rw [calc_route_of_down h]
    exact (nodup_downRun req st.current_floor).append
      (nodup_upRun req st.current_floor)
      (List.disjoint_symm (disjoint_runs req st.current_floor))

/-! ## Dict lemmas and parse invariants -/

theorem dictInsert_cons (k' : Int) (v' : Option Int)
    (rest : List (Int × Option Int)) (k : Int) (v : Option Int) :
    dictInsert ((k', v') :: rest) k v =
      if k' = k then (k, v) :: rest else (k', v') :: dictInsert rest k v := rfl

theorem mem_dictInsert_elim {d : List (Int × Option Int)} {k : Int}
    {v : Option Int} {kv : Int × Option Int} (h : kv ∈ dictInsert d k v) :
    kv ∈ d ∨ kv = (k, v) := by
  induction d with
  | nil =>
      simp only [dictInsert, List.mem_singleton] at h
      exact Or.inr h
  | cons kv' rest ih =>
      obtain ⟨k', v'⟩ := kv'
      rw [dictInsert_cons] at h
      by_cases hk : k' = k
      · rw [if_pos hk] at h
        rcases List.mem_cons.mp h with h | h
        · exact Or.inr h
        · exact Or.inl (List.mem_cons_of_mem _ h)
      · rw [if_neg hk] at h
        rcases List.mem_cons.mp h with h | h
        · exact Or.inl (List.mem_cons.mpr (Or.inl h))
        · rcases ih h with h' | h'
          · exact Or.inl (List.mem_cons_of_mem _ h')
          · exact Or.inr h'

theorem mem_keys_dictInsert {d : List (Int × Option Int)} {k x : Int}
    {v : Option Int} :
    x ∈ (dictInsert d k v).map Prod.fst ↔ x ∈ d.map Prod.fst ∨ x = k := by
  induction d with
  | nil => simp [dictInsert]
  | cons kv rest ih =>
      obtain ⟨k', v'⟩ := kv
      rw [dictInsert_cons]
      by_cases hk : k' = k
      · rw [if_pos hk]
        subst hk
        simp only [List.map_cons, List.mem_cons]
        tauto
      · rw [if_neg hk]
        simp only [List.map_cons, List.mem_cons, ih]
        tauto

theorem nodup_keys_dictInsert {d : List (Int × Option Int)} {k : Int}
    {v : Option Int} (h : (d.map Prod.fst).Nodup) :
    ((dictInsert d k v).map Prod.fst).Nodup := by
  induction d with
  | nil => simp [dictInsert]
  | cons kv rest ih =>
      obtain ⟨k', v'⟩ := kv
      simp only [List.map_cons, List.nodup_cons] at h
      rw [dictInsert_cons]
      by_cases hk : k' = k
      · rw [if_pos hk]
        subst hk
        simp only [List.map_cons, List.nodup_cons]
        exact ⟨h.1, h.2⟩
      · rw [if_neg hk]
        simp only [List.map_cons, List.nodup_cons]
        refine ⟨fun hmem => ?_, ih h.2⟩
        rcases mem_keys_dictInsert.mp hmem with h' | h'
        · exact h.1 h'
        · exact hk h'

theorem lookup_dictInsert (d : List (Int × Option Int)) (k : Int)
    (v : Option Int) : (dictInsert d k v).lookup k = some v := by
  induction d with
  | nil => simp [dictInsert, List.lookup]
  | cons kv rest ih =>
      obtain ⟨k', v'⟩ := kv
      rw [dictInsert_cons]
      by_cases hk : k' = k
      · rw [if_pos hk]
        simp [List.lookup]
      · rw [if_neg hk]
        have hbeq : (k == k') = false := by
          simp only [beq_eq_false_iff_ne, ne_eq]
          exact fun h => hk h.symm
        simpa [List.lookup, hbeq] using ih

theorem parseStep_up_keys_nodup {req : Requests} {lc : Int × Int}
    (hu : (req.up_requests.map Prod.fst).Nodup) :
    ((parseStep req lc).up_requests.map Prod.fst).Nodup := by
  unfold parseStep
  split_ifs <;> first | exact hu | exact nodup_keys_dictInsert hu

theorem parseStep_down_keys_nodup {req : Requests} {lc : Int × Int}
    (hd : (req.down_requests.map Prod.fst).Nodup) :
    ((parseStep req lc).down_requests.map Prod.fst).Nodup := by
  unfold parseStep
  split_ifs <;> first | exact hd | exact nodup_keys_dictInsert hd

theorem foldl_parseStep_keys_nodup (cmds : List (Int × Int)) :
    ∀ req : Requests,
      (req.up_requests.map Prod.fst).Nodup →
      (req.down_requests.map Prod.fst).Nodup →
      ((cmds.foldl parseStep req).up_requests.map Prod.fst).Nodup ∧
        ((cmds.foldl parseStep req).down_requests.map Prod.fst).Nodup := by
  induction cmds with
  | nil => exact fun req hu hd => ⟨hu, hd⟩
  | cons lc rest ih =>
      intro req hu hd
      exact ih _ (parseStep_up_keys_nodup hu) (parseStep_down_keys_nodup hd)

/-- Both dicts of a parsed batch have duplicate-free key lists. -/
theorem parse_keys_nodup (cmds : List (Int × Int)) :
    ((parse_commands cmds).up_requests.map Prod.fst).Nodup ∧
      ((parse_commands cmds).down_requests.map Prod.fst).Nodup :=
  foldl_parseStep_keys_nodup cmds ⟨[], [], []⟩ (by simp) (by simp)

theorem good_dictInsert {d : List (Int × Option Int)} {k : Int} {v : Option Int}
    (hd : ∀ kv ∈ d, ∀ t, kv.2 = some t → 1 ≤ t)
    (hv : ∀ t, v = some t → 1 ≤ t) :
    ∀ kv ∈ dictInsert d k v, ∀ t, kv.2 = some t → 1 ≤ t := by
  intro kv hkv t ht
  rcases mem_dictInsert_elim hkv with h | h
  · exact hd kv h t ht
  · subst h
    exact hv t ht

theorem parseStep_good {m : Int} {req : Requests} {lc : Int × Int}
    (hlc : ValidCommand m lc)
    (hu : ∀ kv ∈ req.up_requests, ∀ t, kv.2 = some t → 1 ≤ t)
    (hd : ∀ kv ∈ req.down_requests, ∀ t, kv.2 = some t → 1 ≤ t) :
    (∀ kv ∈ (parseStep req lc).up_requests, ∀ t, kv.2 = some t → 1 ≤ t) ∧
      (∀ kv ∈ (parseStep req lc).down_requests, ∀ t, kv.2 = some t → 1 ≤ t) := by
  have hval : lc.2 ≠ 11 → lc.2 ≠ 12 → 1 ≤ lc.2 := by
    intro h11 h12
    rcases hlc.2 with ⟨h1c, _⟩ | hc | hc
    · exact h1c
    · exact absurd hc h11
    · exact absurd hc h12
  unfold parseStep
  split_ifs with h1 h2 h3 h4
  · exact ⟨hu, hd⟩
  · refine ⟨good_dictInsert hu ?_, hd⟩
    intro t ht
    simp at ht
  · refine ⟨hu, good_dictInsert hd ?_⟩
    intro t ht
    simp at ht
  · refine ⟨good_dictInsert hu ?_, hd⟩
    intro t ht
    obtain rfl : lc.2 = t := by simpa using ht
    exact hval h2 h3
  · refine ⟨hu, good_dictInsert hd ?_⟩
    intro t ht
    obtain rfl : lc.2 = t := by simpa using ht
    exact hval h2 h3

theorem foldl_parseStep_good {m : Int} (cmds : List (Int × Int)) :
    ∀ req : Requests,
      (∀ lc ∈ cmds, ValidCommand m lc) →
      (∀ kv ∈ req.up_requests, ∀ t, kv.2 = some t → 1 ≤ t) →
      (∀ kv ∈ req.down_requests, ∀ t, kv.2 = some t → 1 ≤ t) →
      (∀ kv ∈ (cmds.foldl parseStep req).up_requests, ∀ t, kv.2 = some t → 1 ≤ t) ∧
        (∀ kv ∈ (cmds.foldl parseStep req).down_requests, ∀ t, kv.2 = some t → 1 ≤ t) := by
  induction cmds with
  | nil => exact fun req _ hu hd => ⟨hu, hd⟩
  | cons lc rest ih =>
      intro req hv hu hd
      have hlc : ValidCommand m lc := hv lc (List.mem_cons_self _ _)
      have hstep := parseStep_good (m := m) hlc hu hd
      exact ih _ (fun lc' hlc' => hv lc' (List.mem_cons_of_mem _ hlc')) hstep.1 hstep.2

/-- In a parsed valid batch, every known destination stored in either dict
is a real floor (`≥ 1`, hence nonzero, hence truthy in Python). -/
theorem parse_good {m : Int} {cmds : List (Int × Int)}
    (hv : ∀ lc ∈ cmds, ValidCommand m lc) :
    (∀ kv ∈ (parse_commands cmds).up_requests, ∀ t, kv.2 = some t → 1 ≤ t) ∧
      (∀ kv ∈ (parse_commands cmds).down_requests, ∀ t, kv.2 = some t → 1 ≤ t) :=
  foldl_parseStep_good cmds ⟨[], [], []⟩ hv (by simp) (by simp)

/-- For classified requests whose stored destinations are all nonzero, the
code's `all_stops` set coincides with the spec's StopSet. -/
theorem stops_toFinset_eq_specStopSet {req : Requests} {current : Int}
    (hu : ∀ kv ∈ req.up_requests, ∀ t, kv.2 = some t → 1 ≤ t)
    (hd : ∀ kv ∈ req.down_requests, ∀ t, kv.2 = some t → 1 ≤ t) :
    (all_stops req current).toFinset = specStopSet req current := by
  ext x
  rw [List.mem_toFinset, mem_all_stops]
  unfold specStopSet
  simp only [Finset.mem_erase, Finset.mem_union, List.mem_toFinset,
    List.mem_map, List.mem_filterMap, ne_eq]
  constructor
  · rintro ⟨hne, h⟩
    refine ⟨hne, ?_⟩
    rcases h with ⟨kv, hkv, hx | ⟨t, ht, _, rfl⟩⟩ | ⟨kv, hkv, hx | ⟨t, ht, _, rfl⟩⟩ | hint
    · exact Or.inl (Or.inl (Or.inl (Or.inl ⟨kv, hkv, hx.symm⟩)))
    · exact Or.inl (Or.inl (Or.inl (Or.inr ⟨kv, hkv, ht⟩)))
    · exact Or.inl (Or.inl (Or.inr ⟨kv, hkv, hx.symm⟩))
    · exact Or.inl (Or.inr ⟨kv, hkv, ht⟩)
    · exact Or.inr hint
  · rintro ⟨hne, h⟩
    refine ⟨hne, ?_⟩
    rcases h with (((⟨kv, hkv, hx⟩ | ⟨kv, hkv, ht⟩) | ⟨kv, hkv, hx⟩) | ⟨kv, hkv, ht⟩) | hint
    · exact Or.inl ⟨kv, hkv, Or.inl hx.symm⟩
    · have hx1 : (1 : Int) ≤ x := hu kv hkv x ht
      exact Or.inl ⟨kv, hkv, Or.inr ⟨x, ht, by omega, rfl⟩⟩
    · exact Or.inr (Or.inl ⟨kv, hkv, Or.inl hx.symm⟩)
    · have hx1 : (1 : Int) ≤ x := hd kv hkv x ht
      exact Or.inr (Or.inl ⟨kv, hkv, Or.inr ⟨x, ht, by omega, rfl⟩⟩)
    · exact Or.inr (Or.inr hint)

/-! ## Counting lemmas for direction resolution -/

theorem length_filter_insertionSort (l : List Int) (p : Int → Bool) :
    ((List.insertionSort (· ≤ ·) l).filter p).length = (l.filter p).length :=
  ((List.perm_insertionSort (· ≤ ·) l).filter p).length_eq

theorem length_filter_reverse (l : List Int) (p : Int → Bool) :
    (l.reverse.filter p).length = (l.filter p).length :=
  (l.reverse_perm.filter p).length_eq

theorem length_filter_eq_card {l : List Int} (h : l.Nodup) (p : Int → Bool) :
    (l.filter p).length = (l.toFinset.filter (fun x => p x = true)).card := by
  rw [← List.toFinset_filter]
  exact (List.toFinset_card_of_nodup (h.filter p)).symm

theorem toFinset_dedup_list (l : List Int) : l.dedup.toFinset = l.toFinset := by
  ext x
  simp [List.mem_dedup]

/-- The code's tally (filter lengths over the sorted lists handed to
`_determine_initial_direction`) agrees with the spec's set-cardinality
tally, and the result is Up exactly on `totalDown ≤ totalUp`. -/
theorem determine_eq_spec (req : Requests) (current : Int)
    (hu : (req.up_requests.map Prod.fst).Nodup)
    (hd : (req.down_requests.map Prod.fst).Nodup) :
    determine_initial_direction current
        (List.insertionSort (· ≤ ·) (req.up_requests.map Prod.fst))
        ((List.insertionSort (· ≤ ·) (req.down_requests.map Prod.fst)).reverse)
        (List.insertionSort (· ≤ ·) req.internal_requests.dedup) =
      (if specTotalDown req current ≤ specTotalUp req current
        then Dir.up else Dir.down) := by
  unfold determine_initial_direction specTotalUp specTotalDown
  rw [length_filter_insertionSort, length_filter_reverse,
    length_filter_insertionSort, length_filter_insertionSort,
    length_filter_insertionSort, length_filter_eq_card hu,
    length_filter_eq_card hd, length_filter_eq_card (List.nodup_dedup _),
    length_filter_eq_card (List.nodup_dedup _), toFinset_dedup_list]
  simp only [decide_eq_true_eq, ge_iff_le]

theorem resolvedDir_of_none {st : EState} (req : Requests)
    (h : st.direction = none) :
    resolvedDir st req =
      some (determine_initial_direction st.current_floor
        (List.insertionSort (· ≤ ·) (req.up_requests.map Prod.fst))
        ((List.insertionSort (· ≤ ·) (req.down_requests.map Prod.fst)).reverse)
        (List.insertionSort (· ≤ ·) req.internal_requests.dedup)) := by
  unfold resolvedDir
  simp [h]

/-! ## Claim theorems -/

/-- C1: for every valid batch, `process_commands` returns a route containing
exactly the floors of the StopSet (hall-up origins, their known
destinations, hall-down origins, their known destinations, cab-call
destinations, minus the current floor), each exactly once. -/
theorem claim_C1_route_is_stopset (st : EState) (cmds : List (Int × Int))
    (hv : ∀ lc ∈ cmds, ValidCommand st.max_floor lc) :
    (process_commands st cmds).1.Nodup ∧
      (process_commands st cmds).1.toFinset =
        specStopSet (parse_commands cmds) st.current_floor := by
  constructor
  · rw [process_route]
    exact nodup_route st _
  · rw [process_route]
    have hg := parse_good hv
    rw [← stops_toFinset_eq_specStopSet hg.1 hg.2]
    ext x
    rw [List.mem_toFinset, List.mem_toFinset, mem_route]

/-- Witness for C1 at a concrete valid batch. -/
theorem claim_C1_route_is_stopset_witness :
    (process_commands ⟨1, 10, none⟩ [(5, 12), (11, 7)]).1.Nodup ∧
      (process_commands ⟨1, 10, none⟩ [(5, 12), (11, 7)]).1.toFinset =
        specStopSet (parse_commands [(5, 12), (11, 7)]) 1 :=
  claim_C1_route_is_stopset ⟨1, 10, none⟩ [(5, 12), (11, 7)] (by decide)

/-- C2: every returned route is two contiguous monotone runs — the floors
above the current floor strictly ascending and those below strictly
descending — with the ascending run first exactly when the effective
direction is Up, so travel direction reverses at most once. -/
theorem claim_C2_single_reversal (st : EState) (cmds : List (Int × Int)) :
    ∃ a b : List Int,
      a.Sorted (· < ·) ∧ b.Sorted (· > ·) ∧
      (∀ x ∈ a, st.current_floor < x) ∧ (∀ x ∈ b, x < st.current_floor) ∧
      (((process_commands st cmds).1 = a ++ b ∧
          (process_commands st cmds).2.direction = some Dir.up) ∨
        ((process_commands st cmds).1 = b ++ a ∧
          (process_commands st cmds).2.direction = some Dir.down)) := by
  refine ⟨upRun (parse_commands cmds) st.current_floor,
    downRun (parse_commands cmds) st.current_floor,
    sorted_upRun _ _, sorted_downRun _ _, ?_, ?_, ?_⟩
  · intro x hx
    exact (mem_upRun.mp hx).2
  · intro x hx
    exact (mem_downRun.mp hx).2
  · rw [process_route, process_direction]
    rcases hdir : resolvedDir st (parse_commands cmds) with _ | d
    · exact absurd hdir (resolvedDir_ne_none _ _)
    cases d
    · exact Or.inl ⟨calc_route_of_up hdir, rfl⟩
    · exact Or.inr ⟨calc_route_of_down hdir, rfl⟩

/-- C3 counterexample: origin `0` lies outside `[1, 10] ∪ {11}`, yet the
batch does not fail — the request is classified as a hall-up call and the
route even visits floor `0`.  No exception path exists in the code. -/
theorem claim_C3_counterexample :
    (parse_commands [(0, 5)]).up_requests = [(0, some 5)] ∧
      (process_commands ⟨1, 10, none⟩ [(0, 5)]).1 = [5, 0] := by decide

/-- C3 amended: classification performs no validation at all — any request
whose origin is not the cab sentinel and whose command is neither marker is
classified by the `command > origin` rule, whatever the ranges. -/
theorem claim_C3_no_validation (o c : Int) (h11 : o ≠ 11) (hc11 : c ≠ 11)
    (hc12 : c ≠ 12) (hoc : o < c) :
    parse_commands [(o, c)] = ⟨[(o, some c)], [], []⟩ := by
  unfold parse_commands
  simp [parseStep, h11, hc11, hc12, hoc, dictInsert]

/-- Witness for the amended C3 at the out-of-range origin `-3`. -/
theorem claim_C3_no_validation_witness :
    parse_commands [((-3 : Int), 5)] = ⟨[(-3, some 5)], [], []⟩ :=
  claim_C3_no_validation (-3) 5 (by decide) (by decide) (by decide) (by decide)

/-- C4 counterexample: the degenerate request `(5, 5)` is not dropped — it
is classified as a hall-down request with destination `5`, and from floor
`1` the route visits floor `5`. -/
theorem claim_C4_counterexample :
    (parse_commands [(5, 5)]).down_requests = [(5, some 5)] ∧
      (process_commands ⟨1, 10, none⟩ [(5, 5)]).1 = [5] := by decide

/-- C4 amended: a request whose command equals its hall origin is
classified as a hall-down request with destination equal to the origin, and
that floor appears in the scheduled route whenever it differs from the
current floor. -/
theorem claim_C4_degenerate_kept (o c : Int) (h11 : o ≠ 11) (h12 : o ≠ 12)
    (hoc : o ≠ c) :
    parse_commands [(o, o)] = ⟨[], [(o, some o)], []⟩ ∧
      o ∈ (process_commands ⟨c, 10, none⟩ [(o, o)]).1 := by
  have hparse : parse_commands [(o, o)] = ⟨[], [(o, some o)], []⟩ := by
    unfold parse_commands
    simp [parseStep, h11, h12, dictInsert, lt_irrefl]
  refine ⟨hparse, ?_⟩
  rw [process_route, mem_route, hparse, mem_all_stops]
  exact ⟨hoc, Or.inr (Or.inl ⟨(o, some o), by simp, Or.inl rfl⟩)⟩

/-- Witness for the amended C4 at `(4, 4)` from floor `1`. -/
theorem claim_C4_degenerate_kept_witness :
    parse_commands [((4 : Int), 4)] = ⟨[], [(4, some 4)], []⟩ ∧
      (4 : Int) ∈ (process_commands ⟨1, 10, none⟩ [(4, 4)]).1 :=
  claim_C4_degenerate_kept 4 1 (by decide) (by decide) (by decide)

/-- C5 counterexample: in the batch `[(5, 8), (5, 11)]` the first request
stores destination `8` for origin `5`, and the later direction-marker
request overwrites it with `None` — the first entry does not win. -/
theorem claim_C5_counterexample :
    (parse_commands [(5, 8), (5, 11)]).up_requests = [(5, none)] ∧
      (5, some 8) ∉ (parse_commands [(5, 8), (5, 11)]).up_requests := by decide

/-- C5 amended: the LAST request for a hall origin wins — after any prefix
batch, a trailing up-marker request for origin `o` leaves the dict mapping
`o` to `None`, discarding any earlier destination. -/
theorem claim_C5_last_wins (cmds : List (Int × Int)) (o : Int) (h : o ≠ 11) :
    ((parse_commands (cmds ++ [(o, 11)])).up_requests).lookup o = some none := by
  have hstep : parse_commands (cmds ++ [(o, 11)]) =
      parseStep (parse_commands cmds) (o, 11) := by
    unfold parse_commands
    rw [List.foldl_append]
    rfl
  rw [hstep]
  unfold parseStep
  simp only [h, if_false, if_true, reduceIte]
  exact lookup_dictInsert _ o none

/-- Witness for the amended C5: destination 8 for origin 5 is replaced. -/
theorem claim_C5_last_wins_witness :
    ((parse_commands ([(5, 8)] ++ [(5, 11)])).up_requests).lookup 5 =
      some none :=
  claim_C5_last_wins [(5, 8)] 5 (by decide)

/-- C6 counterexample: an empty batch with direction Unset returns an empty
route but resolves and persists direction Up — the stored direction does
not stay unchanged. -/
theorem claim_C6_counterexample :
    (process_commands ⟨1, 10, none⟩ []).1 = [] ∧
      (process_commands ⟨1, 10, none⟩ []).2.direction = some Dir.up := by decide

/-- C6 amended: an empty StopSet yields an empty route; an already-set
direction is kept, but an Unset direction is still resolved and persisted
(it never remains `None`). -/
theorem claim_C6_empty_stopset (st : EState) (cmds : List (Int × Int))
    (h : all_stops (parse_commands cmds) st.current_floor = []) :
    (process_commands st cmds).1 = [] ∧
      (∀ d : Dir, st.direction = some d →
        (process_commands st cmds).2.direction = some d) ∧
      (process_commands st cmds).2.direction ≠ none := by
  refine ⟨?_, ?_, ?_⟩
  · have hup : upRun (parse_commands cmds) st.current_floor = [] := by
      unfold upRun
      rw [h]
      rfl
    have hdown : downRun (parse_commands cmds) st.current_floor = [] := by
      unfold downRun
      rw [h]
      rfl
    rw [process_route]
    unfold calculate_optimal_route
    simp [hup, hdown]
  · intro d hd
    rw [process_direction]
    exact resolvedDir_of_some hd
  · rw [process_direction]
    exact resolvedDir_ne_none _ _

/-- Witness for the amended C6: empty batch, direction already Down. -/
theorem claim_C6_empty_stopset_witness :
    (process_commands ⟨2, 10, some Dir.down⟩ []).1 = [] ∧
      (process_commands ⟨2, 10, some Dir.down⟩ []).2.direction =
        some Dir.down :=
  ⟨(claim_C6_empty_stopset ⟨2, 10, some Dir.down⟩ [] (by decide)).1,
    (claim_C6_empty_stopset ⟨2, 10, some Dir.down⟩ [] (by decide)).2.1
      Dir.down rfl⟩

/-- C7: when the stored direction is Unset, the resolved direction is Up
exactly when the spec's tally `totalDown ≤ totalUp` holds (hall-up origins
at or above the current floor plus cab destinations strictly above it,
against the symmetric downward tally), Down otherwise. -/
theorem claim_C7_direction_tally (st : EState) (cmds : List (Int × Int))
    (h : st.direction = none) :
    (process_commands st cmds).2.direction =
      some (if specTotalDown (parse_commands cmds) st.current_floor ≤
            specTotalUp (parse_commands cmds) st.current_floor
          then Dir.up else Dir.down) := by
  rw [process_direction, resolvedDir_of_none _ h,
    determine_eq_spec _ _ (parse_keys_nodup cmds).1 (parse_keys_nodup cmds).2]

/-- Witness for C7 at a concrete state with Unset direction. -/
theorem claim_C7_direction_tally_witness :
    (process_commands ⟨1, 10, none⟩ [(5, 12)]).2.direction =
      some (if specTotalDown (parse_commands [(5, 12)]) 1 ≤
            specTotalUp (parse_commands [(5, 12)]) 1
          then Dir.up else Dir.down) :=
  claim_C7_direction_tally ⟨1, 10, none⟩ [(5, 12)] rfl

/-- C8: the two concrete regression vectors — from floor 10 with StopSet
{3,5,7} the direction resolves Down and the route is [7,5,3]; from floor 4
with StopSet {3,5,7,10} the direction is Up and the route is [5,7,10,3]. -/
theorem claim_C8_regression_vectors :
    (process_commands ⟨10, 10, none⟩ [(5, 12), (10, 12), (3, 11), (7, 11)]).1 =
        [7, 5, 3] ∧
      (process_commands ⟨10, 10, none⟩
            [(5, 12), (10, 12), (3, 11), (7, 11)]).2.direction =
        some Dir.down ∧
      (all_stops (parse_commands [(5, 12), (10, 12), (3, 11), (7, 11)])
            10).toFinset = ({3, 5, 7} : Finset Int) ∧
      (process_commands ⟨4, 10, none⟩ [(5, 12), (10, 12), (3, 12), (7, 11)]).1 =
        [5, 7, 10, 3] ∧
      (process_commands ⟨4, 10, none⟩
            [(5, 12), (10, 12), (3, 12), (7, 11)]).2.direction =
        some Dir.up ∧
      (all_stops (parse_commands [(5, 12), (10, 12), (3, 12), (7, 11)])
            4).toFinset = ({3, 5, 7, 10} : Finset Int) := by
  decide

/-- C9 counterexample: a call on a state with Unset direction mutates the
stored direction (here to Down) — `process_commands` is not free of side
effects on the state. -/
theorem claim_C9_counterexample :
    (process_commands ⟨5, 10, none⟩ [(11, 3)]).2.direction ≠
      (⟨5, 10, none⟩ : EState).direction := by decide

/-- C9 amended: `process_commands` never changes the current floor (or the
max floor); the stored direction is unchanged whenever it was already set,
but an Unset direction is resolved and persisted. -/
theorem claim_C9_floor_frame (st : EState) (cmds : List (Int × Int)) :
    (process_commands st cmds).2.current_floor = st.current_floor ∧
      (process_commands st cmds).2.max_floor = st.max_floor ∧
      (st.direction ≠ none →
        (process_commands st cmds).2.direction = st.direction) := by
  refine ⟨rfl, rfl, fun h => ?_⟩
  rw [process_direction]
  rcases hd : st.direction with _ | d
  · exact absurd hd h
  · rw [resolvedDir_of_some hd]

/-- Witness for the amended C9 at a concrete set-direction state. -/
theorem claim_C9_floor_frame_witness :
    (process_commands ⟨3, 10, some Dir.up⟩ [(2, 11)]).2.current_floor =
        (3 : Int) ∧
      (process_commands ⟨3, 10, some Dir.up⟩ [(2, 11)]).2.direction =
        some Dir.up :=
  ⟨(claim_C9_floor_frame ⟨3, 10, some Dir.up⟩ [(2, 11)]).1,
    (claim_C9_floor_frame ⟨3, 10, some Dir.up⟩ [(2, 11)]).2.2 (by decide)⟩

/-- C10: once the stored direction is non-Unset, no sequence of further
`process_commands` calls ever changes it — the first resolved direction
persists for the controller's lifetime. -/
theorem claim_C10_direction_set_once (batches : List (List (Int × Int))) :
    ∀ (st : EState) (d : Dir), st.direction = some d →
      (batches.foldl (fun s b => (process_commands s b).2) st).direction =
        some d := by
  induction batches with
  | nil => exact fun st d h => h
  | cons b rest ih =>
      intro st d h
      refine ih _ d ?_
      rw [process_direction]
      exact resolvedDir_of_some h

/-- Witness for C10: direction Down survives two further batches. -/
theorem claim_C10_direction_set_once_witness :
    (([[((2 : Int), (11 : Int))], []].foldl
          (fun s b => (process_commands s b).2) ⟨1, 10, some Dir.down⟩)).direction =
      some Dir.down :=
  claim_C10_direction_set_once [[(2, 11)], []] ⟨1, 10, some Dir.down⟩
    Dir.down rfl

end Elevator
